import Mathlib

/-!
Verification development for the batched XAI-metric evaluation core of the
quantus repository.  Python sources are shallowly embedded as Lean
definitions: numpy arrays over rationals, mutable model parameters as
explicit stores, exceptions as `Except`, and the PyTorch RNG as an explicit
state that `torch.manual_seed` overwrites.
-/

namespace Quantus

/-! ## `quantus/helpers/asserts.py` -/

/-- `assert_features_in_step` (asserts.py, lines 65-73): passes (returns
`true`) exactly when `np.prod(input_shape) % features_in_step == 0`;
otherwise the Python `assert` raises (`false`). -/
def assert_features_in_step (features_in_step : ℕ) (input_shape : List ℕ) : Bool :=
  input_shape.prod % features_in_step == 0

/-- A numpy array: its shape and its flattened contents (C order). -/
structure NpArray where
  shape : List ℕ
  data : List ℚ
deriving DecidableEq, Repr

/-- The per-instance shapes accepted by `assert_attributions`
(asserts.py lines 162-164): all trailing sub-shapes
`np.shape(x_batch)[1+dim:]` and all leading sub-shapes
`np.shape(x_batch)[1:1+dim]` for `dim in range(x_batch.ndim)`. -/
def allowed_a_shapes (x : NpArray) : List (List ℕ) :=
  (List.range x.shape.length).map (fun dim => x.shape.tail.drop dim) ++
    (List.range x.shape.length).map (fun dim => x.shape.tail.take dim)

/-- `assert_attributions(x_batch, a_batch)` (asserts.py, lines 150-189):
`true` when every assertion passes, `false` when one raises.  The checks, in
source order: equal sample counts, per-instance shape among the allowed
leading/trailing sub-shapes, not all zero, not all one, more than one
distinct value, not all negative. -/
def assert_attributions (x_batch a_batch : NpArray) : Bool :=
  (x_batch.shape.headD 0 == a_batch.shape.headD 0) &&
  (allowed_a_shapes x_batch).contains a_batch.shape.tail &&
  !(a_batch.data.all (fun v => v == 0)) &&
  !(a_batch.data.all (fun v => v == 1)) &&
  (1 < a_batch.data.dedup.length) &&
  !(a_batch.data.all (fun v => decide (v < 0)))

/-! ## `quantus/helpers/pytorch_model.py`: `get_random_layer_generator`

A model with `n` randomisable layers (modules exposing `reset_parameters`)
is a parameter vector `Fin n → α`.  The torch RNG is an explicit natural
state; `torch.manual_seed(s)` replaces it by `s`, and `reset_parameters`
for layer `i` consumes the RNG state, returning fresh parameters and the
successor RNG state. -/

/-- The three layer orders accepted by `assert_layer_order`. -/
inductive LayerOrder where
  | top_down
  | bottom_up
  | independent
deriving DecidableEq, Repr

/-- `torch.manual_seed(s)`: the RNG state becomes exactly `s`. -/
def manualSeed (s : ℕ) : ℕ := s

/-- The module walk order (pytorch_model.py lines 75-82): the modules in
definition order, reversed when `order == "top_down"`. -/
def moduleIdxs (n : ℕ) (order : LayerOrder) : List (Fin n) :=
  if order = LayerOrder.top_down then (List.finRange n).reverse else List.finRange n

/-- One yielded element of the generator: the layer name (module index),
the RNG state in force when its `reset_parameters` ran, and the parameters
of `random_layer_model` at yield time. -/
structure GenStep (n : ℕ) (α : Type) where
  layerName : Fin n
  rngUsed : ℕ
  modelState : Fin n → α

/-- The loop body of `get_random_layer_generator` (pytorch_model.py lines
84-89) over a remaining module list: for `order == "independent"` reload
`original_parameters` first, call `torch.manual_seed(seed + 1)`, then call
`reset_parameters` on the current layer (drawing from the just-seeded RNG)
and yield.  `rng` is the ambient RNG state on entry to the iteration. -/
def randomLayerGenAux {n : ℕ} {α : Type} (reset : ℕ → Fin n → α × ℕ) (seed : ℕ)
    (indep : Bool) (orig : Fin n → α) :
    List (Fin n) → (Fin n → α) → ℕ → List (GenStep n α)
  | [], _, _ => []
  | i :: rest, cur, _rng =>
    let base := if indep then orig else cur
    let rng1 := manualSeed (seed + 1)
    let r := reset rng1 i
    let next := Function.update base i r.1
    ⟨i, rng1, next⟩ :: randomLayerGenAux reset seed indep orig rest next r.2

/-- `get_random_layer_generator(order, seed)` run to completion: the list of
yields.  `orig` is `self.state_dict()`; the deep copy starts equal to it.
`rng0` is the ambient torch RNG state before the call. -/
def get_random_layer_generator {n : ℕ} {α : Type} (reset : ℕ → Fin n → α × ℕ)
    (order : LayerOrder) (seed : ℕ) (orig : Fin n → α) (rng0 : ℕ) :
    List (GenStep n α) :=
  randomLayerGenAux reset seed (order = LayerOrder.independent) orig
    (moduleIdxs n order) orig rng0

/-- The parameters layer `i` receives from `reset_parameters` when the RNG
was just seeded with `seed + 1`. -/
def resetVal {n : ℕ} {α : Type} (reset : ℕ → Fin n → α × ℕ) (seed : ℕ) (i : Fin n) : α :=
  (reset (manualSeed (seed + 1)) i).1

/-! ## `quantus/metrics/randomisation/eMPRT.py`: parameter frame

The Python heap cells that hold learnable parameters during one
`eMPRT.__call__`: the caller's wrapped model and the `deepcopy` the
generator owns.  `load_state_dict` and `reset_parameters` inside the
generator write only the copy. -/

/-- The two parameter cells live during the layer walk. -/
structure ParamStore (n : ℕ) (α : Type) where
  caller : Fin n → α
  copy : Fin n → α

/-- The eMPRT layer loop (eMPRT.py lines 326-392) fused with the generator
body it drives: each iteration mutates the copy exactly as
`get_random_layer_generator` does, then scores the explanation computed
from the randomised copy; `quality` may raise (`Except.error`), aborting
the walk with the store as of that iteration. -/
def emprtWalk {n : ℕ} {α : Type} {ε : Type} (reset : ℕ → Fin n → α × ℕ) (seed : ℕ)
    (indep : Bool) (origDict : Fin n → α)
    (quality : (Fin n → α) → Except ε ℚ) :
    List (Fin n) → ParamStore n α → ℕ → Except ε (List (Fin n × ℚ)) × ParamStore n α
  | [], s, _ => (Except.ok [], s)
  | i :: rest, s, _rng =>
    let base := if indep then origDict else s.copy
    let rng1 := manualSeed (seed + 1)
    let r := reset rng1 i
    let s1 : ParamStore n α := { caller := s.caller, copy := Function.update base i r.1 }
    match quality s1.copy with
    | Except.error e => (Except.error e, s1)
    | Except.ok q =>
      match emprtWalk reset seed indep origDict quality rest s1 r.2 with
      | (Except.error e, s2) => (Except.error e, s2)
      | (Except.ok scores, s2) => (Except.ok ((i, q) :: scores), s2)

/-- One `eMPRT.__call__` restricted to its parameter-touching operations:
read `original_parameters = self.state_dict()`, `deepcopy` the model into
the copy cell, then run the layer walk.  Returns the outcome (per-layer
scores, or the propagated exception) together with the final heap. -/
def emprtCall {n : ℕ} {α : Type} {ε : Type} (reset : ℕ → Fin n → α × ℕ)
    (order : LayerOrder) (seed : ℕ)
    (quality : (Fin n → α) → Except ε ℚ)
    (s : ParamStore n α) (rng0 : ℕ) :
    Except ε (List (Fin n × ℚ)) × ParamStore n α :=
  let origDict := s.caller
  let s0 : ParamStore n α := { caller := s.caller, copy := s.caller }
  emprtWalk reset seed (order = LayerOrder.independent) origDict quality
    (moduleIdxs n order) s0 rng0

/-! ## `quantus/metrics/base_batched.py`: the batch evaluation loop -/

/-- Modelled from the spec: `batch_inputs` (imported by base_batched.py from
`quantus.helpers.utils`, whose source is not in the excerpt) partitions a
batch into mini-batches of `batch_size` preserving the original order; a
shorter tail batch is permitted, with no padding. -/
def batch_inputs {ι : Type} (batch_size : ℕ) : List ι → List (List ι)
  | [] => []
  | x :: xs =>
    match batch_size with
    | 0 => []
    | b + 1 => (x :: xs).take (b + 1) :: batch_inputs (b + 1) ((x :: xs).drop (b + 1))
termination_by xs => xs.length
decreasing_by simp; omega

/-- `BatchedMetric.__call__` (base_batched.py lines 235-261) with the
preprocessing already done: split `x_batch` into mini-batches, run the
concrete metric's `evaluate_batch` hook on each, extend the score list,
and apply `aggregate_func` when `return_aggregate` is set. -/
def batchedMetricCall {ι ρ : Type} (batch_size : ℕ) (return_aggregate : Bool)
    (aggregate_func : List ρ → List ρ) (evaluateBatch : List ι → List ρ)
    (x_batch : List ι) : List ρ :=
  let scores_batch := ((batch_inputs batch_size x_batch).map evaluateBatch).flatten
  if return_aggregate then aggregate_func scores_batch else scores_batch

/-- `np.argmax` over one logits row: the first index attaining the maximum. -/
def argmaxIdx (l : List ℚ) : ℕ :=
  (List.range l.length).foldl (fun best i => if l.getD best 0 < l.getD i 0 then i else best) 0

/-- `BatchedPerturbationMetric.changed_prediction_indices` (base_batched.py
lines 496-510): the empty index list when `return_nan_when_prediction_changes`
is unset, else the flat indices where the argmax prediction on `x_batch`
and on `x_perturbed` differ. -/
def changed_prediction_indices {ι : Type} (return_nan_when_prediction_changes : Bool)
    (predict : ι → List ℚ) (x_batch x_perturbed : List ι) : List ℕ :=
  if !return_nan_when_prediction_changes then []
  else
    let og_labels := x_batch.map (fun x => argmaxIdx (predict x))
    let perturbed_labels := x_perturbed.map (fun x => argmaxIdx (predict x))
    (List.range og_labels.length).filter
      (fun i => og_labels.getD i 0 ≠ perturbed_labels.getD i 0)

/-! ## NaN-carrying floats

A score is either a rational or NaN (`none`); `np.max` propagates NaN,
`np.nanmean` averages the non-NaN entries and yields NaN only when no
entry is a number. -/

/-- A float value: `none` is NaN. -/
abbrev FVal := Option ℚ

/-- Binary max with numpy NaN propagation. -/
def fmax : FVal → FVal → FVal
  | some a, some b => some (max a b)
  | _, _ => none

/-- `np.max` over a nonempty list (NaN-propagating); numpy raises on an
empty reduction, modelled as NaN. -/
def npmaxList : List FVal → FVal
  | [] => none
  | x :: xs => xs.foldl fmax x

/-- `np.nanmean` over one axis slice: the mean of the non-NaN entries, NaN
when all entries are NaN. -/
def nanmean (l : List FVal) : FVal :=
  match l.filterMap id with
  | [] => none
  | v :: vs => some ((v :: vs).sum / (v :: vs).length)

/-- `AvgSensitivity.aggregate_instances` (nlp avg_sensitivity.py lines
96-97): `np.nanmean(scores, axis=0)`, per instance across rounds.  `rows`
is the rounds-by-instances score matrix. -/
def aggregate_instances (rows : List (List FVal)) (n : ℕ) : List FVal :=
  (List.range n).map (fun i => nanmean (rows.map (fun row => row.getD i none)))

/-- The NaN-overwrite step `ris_batch[index, changed_prediction_indices] =
np.nan` (relative_input_stability.py line 243) applied to one round's raw
scores. -/
def maskRow (row : List ℚ) (changed : List ℕ) : List FVal :=
  (List.range row.length).map (fun i => if i ∈ changed then none else some (row.getD i 0))

/-- `RelativeInputStability.evaluate_batch` (relative_input_stability.py
lines 225-247) abstracted over the perturbation draws and the stability
objective: per round, take the objective's raw scores, overwrite the
entries whose prediction flipped with NaN; finally reduce with
`np.max(ris_batch, axis=0)` per instance.  `x_perturbed r` is the
perturbed batch drawn in round `r` and `objective r` that round's
`relative_input_stability_objective` output. -/
def risEvaluateBatch {ι : Type} (return_nan_when_prediction_changes : Bool)
    (predict : ι → List ℚ) (nr_samples : ℕ) (x_batch : List ι)
    (x_perturbed : ℕ → List ι) (objective : ℕ → List ℚ) : List FVal :=
  let rows := (List.range nr_samples).map (fun r =>
    maskRow (objective r)
      (changed_prediction_indices return_nan_when_prediction_changes predict
        x_batch (x_perturbed r)))
  (List.range x_batch.length).map (fun i => npmaxList (rows.map (fun row => row.getD i none)))

/-! ## `quantus/metrics/inverse_estimation.py` -/

/-- The configuration of the wrapped metric that `InverseEstimation.__init__`
inspects and rewrites. -/
structure MetricConfig where
  abs : Bool
  return_aggregate : Bool
deriving DecidableEq, Repr

/-- The configuration errors `InverseEstimation.__init__` can raise. -/
inductive InitError where
  | mutuallyExclusiveFlags
  | invalidInverseMethod
  | absNotAllowed
deriving DecidableEq, Repr

/-- `InverseEstimation.__init__` (inverse_estimation.py lines 128-147)
restricted to its validation of the wrapped metric: assert that not both
per-sample reductions are requested, raise `ValueError` on an unknown
`inverse_method`, force the wrapped metric's `return_aggregate` off, and
assert the wrapped metric keeps attribution signs (`abs == False`).
Returns the wrapped metric's configuration as stored on success. -/
def inverseEstimationInit (metric_init : MetricConfig) (inverse_method : String)
    (return_mean_per_sample return_auc_per_sample : Bool) :
    Except InitError MetricConfig :=
  if return_mean_per_sample && return_auc_per_sample then
    Except.error InitError.mutuallyExclusiveFlags
  else if inverse_method ≠ "sign-flip" ∧ inverse_method ≠ "value-swap" then
    Except.error InitError.invalidInverseMethod
  else
    let m1 := if metric_init.return_aggregate then
      { metric_init with return_aggregate := false } else metric_init
    if m1.abs then Except.error InitError.absNotAllowed
    else Except.ok m1

/-- `InverseEstimation.evaluate_batch` (inverse_estimation.py lines
281-323) abstracted over the wrapped metric's two runs: compute
`scores_ori`, assert it has one score per instance, then return
`scores_ori - scores_inv` elementwise. -/
def inverseEvaluateBatch {ι : Type} (metricCallOri metricCallInv : List ι → List ℚ)
    (x_batch : List ι) : Except String (List ℚ) :=
  let scores_ori := metricCallOri x_batch
  if scores_ori.length ≠ x_batch.length then
    Except.error "number of evaluation scores must match the number of instances"
  else
    Except.ok (List.zipWith (fun a b => a - b) scores_ori (metricCallInv x_batch))

/-! ### `get_inverse_attributions`

An attribution batch, after the `reshape((shape_ori[0], -1))` flattening,
is a list of rows `Fin m → ℚ`.  `np.argsort` is modelled as a stable sort
of the index list by value (ties broken by index, as numpy's stable sorts
do; the claims about ties-free rows do not depend on the tie rule). -/

/-- The order `np.argsort` sorts indices by: value, then index. -/
def argsortRel {m : ℕ} (a : Fin m → ℚ) (i j : Fin m) : Prop :=
  a i < a j ∨ (a i = a j ∧ i ≤ j)

instance argsortRelDecidable {m : ℕ} (a : Fin m → ℚ) : DecidableRel (argsortRel a) :=
  fun _ _ => inferInstanceAs (Decidable (_ ∨ _))

instance argsortRelTotal {m : ℕ} (a : Fin m → ℚ) : IsTotal (Fin m) (argsortRel a) := by
  constructor
  intro i j
  rcases lt_trichotomy (a i) (a j) with h | h | h
  · exact Or.inl (Or.inl h)
  · rcases le_total i j with h2 | h2
    · exact Or.inl (Or.inr ⟨h, h2⟩)
    · exact Or.inr (Or.inr ⟨h.symm, h2⟩)
  · exact Or.inr (Or.inl h)

instance argsortRelTrans {m : ℕ} (a : Fin m → ℚ) : IsTrans (Fin m) (argsortRel a) := by
  constructor
  rintro i j k (h1 | ⟨h1, h1i⟩) (h2 | ⟨h2, h2i⟩)
  · exact Or.inl (h1.trans h2)
  · exact Or.inl (h2 ▸ h1)
  · exact Or.inl (h1 ▸ h2)
  · exact Or.inr ⟨h1.trans h2, h1i.trans h2i⟩

instance argsortRelAntisymm {m : ℕ} (a : Fin m → ℚ) : IsAntisymm (Fin m) (argsortRel a) := by
  constructor
  rintro i j (h1 | ⟨h1, h1i⟩) (h2 | ⟨h2, h2i⟩)
  · exact absurd (h1.trans h2) (lt_irrefl _)
  · exact absurd h1 (h2 ▸ lt_irrefl _)
  · exact absurd h2 (h1 ▸ lt_irrefl _)
  · exact le_antisymm h1i h2i

/-- `np.argsort(a)` on one row: the indices sorted by value. -/
def argsort {m : ℕ} (a : Fin m → ℚ) : List (Fin m) :=
  List.insertionSort (argsortRel a) (List.finRange m)

/-- Numpy fancy-index assignment `out[positions[k]] = values[k]`. -/
def scatterUpdate {m : ℕ} (pairs : List (Fin m × ℚ)) (g : Fin m → ℚ) : Fin m → ℚ :=
  pairs.foldl (fun h pv => Function.update h pv.1 pv.2) g

/-- The `value-swap` branch of `get_inverse_attributions` on one flattened
row (inverse_estimation.py lines 352-356):
`a_inv[indices] = a[indices[::-1]]` with `indices = np.argsort(a)`.
`np.empty_like` garbage is modelled as zero; every cell is overwritten. -/
def valueSwapRow {m : ℕ} (a : Fin m → ℚ) : Fin m → ℚ :=
  let indices := argsort a
  scatterUpdate (indices.zip (indices.reverse.map a)) (fun _ => 0)

/-- `InverseEstimation.get_inverse_attributions` (inverse_estimation.py
lines 343-358) on the already-flattened batch: negate every value for
`sign-flip`, reverse the rank order for `value-swap`.  Any other method
name leaves `a_batch_inv` unbound in the source (`NameError`, unreachable
past `__init__`), modelled as the empty batch. -/
def get_inverse_attributions {m : ℕ} (inverse_method : String)
    (a_batch : List (Fin m → ℚ)) : List (Fin m → ℚ) :=
  if inverse_method = "sign-flip" then a_batch.map (fun a i => -(a i))
  else if inverse_method = "value-swap" then a_batch.map valueSwapRow
  else []

/-! ## Theorems -/

/-- Helper: `assert_attributions` passes iff all six checks hold. -/
theorem assert_attributions_eq_true_iff (x_batch a_batch : NpArray) :
    assert_attributions x_batch a_batch = true ↔
      (x_batch.shape.headD 0 = a_batch.shape.headD 0 ∧
        a_batch.shape.tail ∈ allowed_a_shapes x_batch ∧
        ¬(∀ v ∈ a_batch.data, v = 0) ∧
        ¬(∀ v ∈ a_batch.data, v = 1) ∧
        1 < a_batch.data.dedup.length ∧
        ¬(∀ v ∈ a_batch.data, v < 0)) := by
  simp [assert_attributions, List.all_eq_true, List.elem_iff, and_assoc]

/-- C9 (counterexample): the claim asserts `assert_features_in_step(16, (28,28))`
raises because "784 % 16 != 0"; in fact `784 % 16 == 0` (784 = 16·49), so the
assertion passes. -/
theorem features_in_step_16_passes :
    assert_features_in_step 16 [28, 28] = true ∧ (784 : ℕ) % 16 = 0 := by
  constructor
  · decide
  · decide

/-- C9 (amended): `assert_features_in_step(features_in_step, input_shape)`
raises exactly when `np.prod(input_shape) % features_in_step != 0`; for
`input_shape=(28,28)`, `features_in_step=3` raises (784 % 3 != 0) while
`features_in_step=28` and `features_in_step=16` both pass
(784 % 28 == 0 and 784 % 16 == 0). -/
theorem assert_features_in_step_spec :
    (∀ (features_in_step : ℕ) (input_shape : List ℕ),
      assert_features_in_step features_in_step input_shape = false ↔
        input_shape.prod % features_in_step ≠ 0) ∧
    assert_features_in_step 3 [28, 28] = false ∧
    assert_features_in_step 28 [28, 28] = true ∧
    assert_features_in_step 16 [28, 28] = true := by
  refine ⟨fun features_in_step input_shape => ?_, by decide, by decide, by decide⟩
  simp [assert_features_in_step]

/-- C7: `assert_attributions` raises for all-zero, all-one, uniformly
constant (fewer than 2 distinct values) and all-negative attribution
batches, for per-instance shapes that are not a leading or trailing
sub-shape of the input's per-instance shape, and for differing sample
counts; it passes for any shape-compatible batch with at least 2 distinct
values and mixed sign. -/
theorem assert_attributions_spec (x_batch a_batch : NpArray) :
    ((∀ v ∈ a_batch.data, v = 0) → assert_attributions x_batch a_batch = false) ∧
    ((∀ v ∈ a_batch.data, v = 1) → assert_attributions x_batch a_batch = false) ∧
    (a_batch.data.dedup.length ≤ 1 → assert_attributions x_batch a_batch = false) ∧
    ((∀ v ∈ a_batch.data, v < 0) → assert_attributions x_batch a_batch = false) ∧
    (a_batch.shape.tail ∉ allowed_a_shapes x_batch →
      assert_attributions x_batch a_batch = false) ∧
    (x_batch.shape.headD 0 ≠ a_batch.shape.headD 0 →
      assert_attributions x_batch a_batch = false) ∧
    (x_batch.shape.headD 0 = a_batch.shape.headD 0 →
      a_batch.shape.tail ∈ allowed_a_shapes x_batch →
      2 ≤ a_batch.data.dedup.length →
      (∃ v ∈ a_batch.data, v < 0) →
      (∃ v ∈ a_batch.data, 0 < v) →
      assert_attributions x_batch a_batch = true) := by
  have hiff := assert_attributions_eq_true_iff x_batch a_batch
  refine ⟨?_, ?_, ?_, ?_, ?_, ?_, ?_⟩
  · intro h
    rw [← Bool.not_eq_true, hiff]
    intro hc
    exact hc.2.2.1 h
  · intro h
    rw [← Bool.not_eq_true, hiff]
    intro hc
    exact hc.2.2.2.1 h
  · intro h
    rw [← Bool.not_eq_true, hiff]
    intro hc
    omega
  · intro h
    rw [← Bool.not_eq_true, hiff]
    intro hc
    exact hc.2.2.2.2.2 h
  · intro h
    rw [← Bool.not_eq_true, hiff]
    intro hc
    exact h hc.2.1
  · intro h
    rw [← Bool.not_eq_true, hiff]
    intro hc
    exact h hc.1
  · rintro h1 h2 h3 ⟨vn, hvn, hvneg⟩ ⟨vp, hvp, hvpos⟩
    rw [hiff]
    refine ⟨h1, h2, ?_, ?_, by omega, ?_⟩
    · intro hall
      exact absurd (hall vp hvp) (by exact fun h => absurd (h ▸ hvpos) (lt_irrefl 0))
    · intro hall
      exact absurd (hall vn hvn) (by intro h; rw [h] at hvneg; exact absurd hvneg (by norm_num))
    · intro hall
      exact absurd hvpos (not_lt.mpr (le_of_lt (hall vp hvp)))

/-- C7 witness: a concrete mixed-sign, non-constant, shape-compatible
attribution batch passes `assert_attributions`. -/
theorem assert_attributions_spec_witness :
    assert_attributions ⟨[2, 2], [0, 0, 0, 0]⟩ ⟨[2, 2], [-1, 1, 2, 3]⟩ = true :=
  (assert_attributions_spec ⟨[2, 2], [0, 0, 0, 0]⟩ ⟨[2, 2], [-1, 1, 2, 3]⟩).2.2.2.2.2.2
    (by decide) (by decide) (by decide) ⟨-1, by decide, by norm_num⟩ ⟨1, by decide, by norm_num⟩

/-- C8: `InverseEstimation.__init__` forces the wrapped metric's
`return_aggregate` off on every successful construction; it fails whenever
the wrapped metric has `abs=True`, fails with `ValueError` for an
`inverse_method` other than `sign-flip`/`value-swap`, and fails when
`return_mean_per_sample` and `return_auc_per_sample` are both set;
`evaluate_batch` fails unless `len(scores_ori) == len(x_batch)`. -/
theorem inverse_estimation_init_spec (metric_init : MetricConfig)
    (inverse_method : String) (return_mean_per_sample return_auc_per_sample : Bool) :
    (∀ out, inverseEstimationInit metric_init inverse_method return_mean_per_sample
        return_auc_per_sample = Except.ok out → out.return_aggregate = false) ∧
    (metric_init.abs = true →
      ∀ out, inverseEstimationInit metric_init inverse_method return_mean_per_sample
        return_auc_per_sample ≠ Except.ok out) ∧
    (inverse_method ≠ "sign-flip" → inverse_method ≠ "value-swap" →
      (∀ out, inverseEstimationInit metric_init inverse_method return_mean_per_sample
        return_auc_per_sample ≠ Except.ok out) ∧
      ((return_mean_per_sample && return_auc_per_sample) = false →
        inverseEstimationInit metric_init inverse_method return_mean_per_sample
          return_auc_per_sample = Except.error InitError.invalidInverseMethod)) ∧
    ((return_mean_per_sample && return_auc_per_sample) = true →
      inverseEstimationInit metric_init inverse_method return_mean_per_sample
        return_auc_per_sample = Except.error InitError.mutuallyExclusiveFlags) ∧
    (∀ (ι : Type) (metricCallOri metricCallInv : List ι → List ℚ) (x_batch : List ι),
      (metricCallOri x_batch).length ≠ x_batch.length →
      ∀ out, inverseEvaluateBatch metricCallOri metricCallInv x_batch ≠ Except.ok out) := by
  refine ⟨?_, ?_, ?_, ?_, ?_⟩
  · intro out h
    simp only [inverseEstimationInit] at h
    split_ifs at h with h1 h2 h3 h4 <;>
      simp only [Except.ok.injEq, reduceCtorEq] at h <;> rw [← h]
    simpa using h3
  · intro habs out h
    simp only [inverseEstimationInit] at h
    split_ifs at h with h1 h2 h3
  · intro hm1 hm2
    constructor
    · intro out h
      simp only [inverseEstimationInit] at h
      split_ifs at h with h1 h2 h3 h4 <;>
        simp only [Except.ok.injEq, reduceCtorEq] at h <;>
        exact absurd ⟨hm1, hm2⟩ h2
    · intro hflags
      simp only [inverseEstimationInit, hflags, Bool.false_eq_true, if_false]
      rw [if_pos ⟨hm1, hm2⟩]
  · intro hflags
    simp only [inverseEstimationInit, hflags, if_true]
  · intro ι metricCallOri metricCallInv x_batch hlen out
    simp only [inverseEvaluateBatch]
    rw [if_pos hlen]
    simp

/-- C8 witness: concrete applications of the init and evaluate contracts. -/
theorem inverse_estimation_init_spec_witness :
    (⟨false, false⟩ : MetricConfig).return_aggregate = false ∧
    inverseEstimationInit ⟨false, false⟩ "sign-flip" true true =
      Except.error InitError.mutuallyExclusiveFlags ∧
    inverseEstimationInit ⟨false, false⟩ "bogus" true false =
      Except.error InitError.invalidInverseMethod :=
  ⟨(inverse_estimation_init_spec ⟨false, true⟩ "sign-flip" true false).1
      ⟨false, false⟩ rfl,
   (inverse_estimation_init_spec ⟨false, false⟩ "sign-flip" true true).2.2.2.1 (by decide),
   ((inverse_estimation_init_spec ⟨false, false⟩ "bogus" true false).2.2.1
      (by decide) (by decide)).2 (by decide)⟩

/-- C5: `changed_prediction_indices` returns the empty index list whenever
`return_nan_when_prediction_changes` is false, for every model and batch
pair; otherwise it returns exactly the flat indices at which the argmax
predictions on the original and the perturbed batch differ. -/
theorem changed_prediction_indices_spec {ι : Type} (predict : ι → List ℚ)
    (x_batch x_perturbed : List ι) :
    changed_prediction_indices false predict x_batch x_perturbed = [] ∧
    (x_batch.length = x_perturbed.length →
      ∀ i : ℕ, i ∈ changed_prediction_indices true predict x_batch x_perturbed ↔
        ∃ (hi : i < x_batch.length) (hj : i < x_perturbed.length),
          argmaxIdx (predict (x_batch.get ⟨i, hi⟩)) ≠
            argmaxIdx (predict (x_perturbed.get ⟨i, hj⟩))) := by
  constructor
  · simp [changed_prediction_indices]
  · intro hlen i
    simp only [changed_prediction_indices, Bool.not_true, Bool.false_eq_true, if_false,
      List.mem_filter, List.mem_range, List.length_map, decide_eq_true_iff]
    constructor
    · rintro ⟨hi, hne⟩
      refine ⟨hi, by omega, ?_⟩
      rw [List.getD_eq_getElem _ _ (by simpa using hi),
        List.getD_eq_getElem _ _ (by simp; omega)] at hne
      simpa using hne
    · rintro ⟨hi, hj, hne⟩
      refine ⟨hi, ?_⟩
      rw [List.getD_eq_getElem _ _ (by simpa using hi),
        List.getD_eq_getElem _ _ (by simpa using hj)]
      simpa using hne

/-- C5 witness: with the guard on, a flipped instance is reported. -/
theorem changed_prediction_indices_spec_witness :
    1 ∈ changed_prediction_indices true
      (fun b : Bool => if b then [0, 1] else [1, 0]) [false, false] [false, true] :=
  ((changed_prediction_indices_spec (fun b : Bool => if b then [0, 1] else [1, 0])
      [false, false] [false, true]).2 rfl 1).mpr
    ⟨by decide, by decide, by decide⟩

/-- Helper: mini-batching with a positive batch size partitions the batch:
flattening the mini-batches recovers the original list. -/
theorem batch_inputs_flatten {ι : Type} (b : ℕ) (xs : List ι) :
    (batch_inputs (b + 1) xs).flatten = xs := by
  suffices h : ∀ (k : ℕ) (ys : List ι), ys.length ≤ k →
      (batch_inputs (b + 1) ys).flatten = ys from h xs.length xs le_rfl
  intro k
  induction k with
  | zero =>
    intro ys hy
    cases ys with
    | nil => simp [batch_inputs]
    | cons y ys => simp at hy
  | succ k ih =>
    intro ys hy
    cases ys with
    | nil => simp [batch_inputs]
    | cons y ys =>
      rw [batch_inputs]
      simp only [List.flatten_cons]
      rw [ih _ (by simp at hy ⊢; omega)]
      exact List.take_append_drop _ _

/-- C2: one `BatchedMetric.__call__` returns one score per input instance:
when the configuration does not aggregate and the concrete metric's
`evaluate_batch` hook returns one score per instance of its mini-batch,
`len(scores) == len(x_batch)` for every positive internal batch size. -/
theorem batched_metric_call_length {ι ρ : Type} (batch_size : ℕ)
    (aggregate_func : List ρ → List ρ) (evaluateBatch : List ι → List ρ)
    (x_batch : List ι) (hbs : 0 < batch_size)
    (hhook : ∀ mb, (evaluateBatch mb).length = mb.length) :
    (batchedMetricCall batch_size false aggregate_func evaluateBatch x_batch).length
      = x_batch.length := by
  obtain ⟨b, rfl⟩ : ∃ b, batch_size = b + 1 :=
    ⟨batch_size - 1, by omega⟩
  simp only [batchedMetricCall, Bool.false_eq_true, if_false]
  rw [List.length_flatten, List.map_map]
  have hmaps : (batch_inputs (b + 1) x_batch).map (List.length ∘ evaluateBatch)
      = (batch_inputs (b + 1) x_batch).map List.length :=
    List.map_congr_left (fun mb _ => hhook mb)
  rw [hmaps, ← List.length_flatten, batch_inputs_flatten]

/-- C2 witness: five instances, internal batch size two, a hook returning
one score per instance: five scores. -/
theorem batched_metric_call_length_witness :
    (batchedMetricCall 2 false id (fun mb => mb.map (fun q : ℚ => q * 2))
      [1, 2, 3, 4, 5]).length = [(1 : ℚ), 2, 3, 4, 5].length :=
  batched_metric_call_length 2 id (fun mb => mb.map (fun q : ℚ => q * 2))
    [1, 2, 3, 4, 5] (by decide) (fun mb => by simp)

/-- Helper: the NaN-propagating fold of `np.max` is NaN as soon as its
accumulator is NaN. -/
theorem foldl_fmax_none (l : List FVal) : l.foldl fmax none = none := by
  induction l with
  | nil => rfl
  | cons x xs ih => simpa [fmax] using ih

/-- Helper: `np.max` over a nonempty all-NaN axis slice is NaN. -/
theorem npmaxList_eq_none (l : List FVal) (hne : l ≠ [])
    (hall : ∀ v ∈ l, v = none) : npmaxList l = none := by
  cases l with
  | nil => exact absurd rfl hne
  | cons x xs =>
    have hx : x = none := hall x (List.mem_cons_self x xs)
    simpa [npmaxList, hx] using foldl_fmax_none xs

/-- C4: with `return_nan_when_prediction_changes=True`, a perturbation
round that flips instance `i`'s prediction scores `i` as NaN in that
round's row; an instance whose row entry is NaN on every round gets a NaN
per-instance reduction `np.max(ris_batch, axis=0)`; and the configured
`np.nanmean` aggregation maps an all-NaN slice to NaN instead of zero. -/
theorem ris_nan_propagation {ι : Type} (predict : ι → List ℚ) (nr_samples : ℕ)
    (x_batch : List ι) (x_perturbed : ℕ → List ι) (objective : ℕ → List ℚ) :
    (∀ r i, i ∈ changed_prediction_indices true predict x_batch (x_perturbed r) →
      i < (objective r).length →
      (maskRow (objective r)
        (changed_prediction_indices true predict x_batch (x_perturbed r))).getD i (some 0)
        = none) ∧
    (∀ i, i < x_batch.length → 0 < nr_samples →
      (∀ r, r < nr_samples →
        (maskRow (objective r)
          (changed_prediction_indices true predict x_batch (x_perturbed r))).getD i none
          = none) →
      (risEvaluateBatch true predict nr_samples x_batch x_perturbed objective).getD i (some 0)
        = none) ∧
    (∀ column : List FVal, (∀ v ∈ column, v = none) → nanmean column = none) := by
  refine ⟨?_, ?_, ?_⟩
  · intro r i hmem hilen
    rw [maskRow, List.getD_eq_getElem _ _ (by simpa using hilen)]
    simp [hmem]
  · intro i hi hR hall
    rw [risEvaluateBatch, List.getD_eq_getElem _ _ (by simpa using hi)]
    simp only [List.getElem_map, List.getElem_range, List.map_map]
    apply npmaxList_eq_none
    · simp only [ne_eq, List.map_eq_nil_iff, List.range_eq_nil]
      omega
    · intro v hv
      simp only [List.mem_map, List.mem_range, Function.comp] at hv
      obtain ⟨r, hr, rfl⟩ := hv
      exact hall r hr
  · intro column hall
    rw [nanmean]
    have : column.filterMap id = [] := by
      rw [List.filterMap_eq_nil_iff]
      intro v hv
      simpa using hall v hv
    rw [this]

/-- C4 witness: two rounds, two instances, round perturbations that flip
instance 1's prediction in every round: its round scores and its reduced
score are NaN, and `np.nanmean` of an all-NaN slice is NaN. -/
theorem ris_nan_propagation_witness :
    (maskRow [5, 7]
      (changed_prediction_indices true (fun b : Bool => if b then [0, 1] else [1, 0])
        [false, false] [false, true])).getD 1 (some 0) = none ∧
    (risEvaluateBatch true (fun b : Bool => if b then [0, 1] else [1, 0]) 2
      [false, false] (fun _ => [false, true]) (fun _ => [5, 7])).getD 1 (some 0) = none ∧
    nanmean [none, none] = none :=
  ⟨(ris_nan_propagation (fun b : Bool => if b then [0, 1] else [1, 0]) 2
      [false, false] (fun _ => [false, true]) (fun _ => [5, 7])).1 0 1
      (by decide) (by decide),
   (ris_nan_propagation (fun b : Bool => if b then [0, 1] else [1, 0]) 2
      [false, false] (fun _ => [false, true]) (fun _ => [5, 7])).2.1 1
      (by decide) (by decide) (fun r hr => by interval_cases r <;> decide),
   (ris_nan_propagation (fun b : Bool => if b then [0, 1] else [1, 0]) 2
      [false, false] (fun _ => [false, true]) (fun _ => [5, 7])).2.2
      [none, none] (by decide)⟩

/-- Helper: the eMPRT layer walk never writes the caller's parameter cell,
whether it finishes or a `quality` exception aborts it partway. -/
theorem emprtWalk_caller {n : ℕ} {α ε : Type} (reset : ℕ → Fin n → α × ℕ) (seed : ℕ)
    (indep : Bool) (origDict : Fin n → α) (quality : (Fin n → α) → Except ε ℚ) :
    ∀ (idxs : List (Fin n)) (s : ParamStore n α) (rng : ℕ),
      ((emprtWalk reset seed indep origDict quality idxs s rng).2).caller = s.caller := by
  intro idxs
  induction idxs with
  | nil => intro s rng; rfl
  | cons i rest ih =>
    intro s rng
    simp only [emprtWalk]
    split
    · rfl
    · split
      · next s2 heq =>
        have h2 := ih ⟨s.caller, Function.update
            (if indep = true then origDict else s.copy) i
            (reset (manualSeed (seed + 1)) i).1⟩ (reset (manualSeed (seed + 1)) i).2
        rw [heq] at h2
        exact h2
      · next s2 heq =>
        have h2 := ih ⟨s.caller, Function.update
            (if indep = true then origDict else s.copy) i
            (reset (manualSeed (seed + 1)) i).1⟩ (reset (manualSeed (seed + 1)) i).2
        rw [heq] at h2
        exact h2

/-- C1: after one eMPRT call — whether it returns normally or propagates an
exception raised partway through the layer walk (for instance by
`quality_func`) — the caller's model parameters are untouched:
`model.state_dict()` equals the pre-call state dict bit-for-bit, because
randomisation is applied only to the deep-copied model. -/
theorem emprt_call_preserves_caller {n : ℕ} {α ε : Type} (reset : ℕ → Fin n → α × ℕ)
    (order : LayerOrder) (seed : ℕ) (quality : (Fin n → α) → Except ε ℚ)
    (s : ParamStore n α) (rng0 : ℕ) :
    ((emprtCall reset order seed quality s rng0).2).caller = s.caller := by
  unfold emprtCall
  exact emprtWalk_caller reset seed _ s.caller quality (moduleIdxs n order)
    { caller := s.caller, copy := s.caller } rng0

/-! ### Generator characterisation -/

theorem moduleIdxs_bottom_up (n : ℕ) :
    moduleIdxs n LayerOrder.bottom_up = List.finRange n := by
  simp [moduleIdxs]

theorem moduleIdxs_independent (n : ℕ) :
    moduleIdxs n LayerOrder.independent = List.finRange n := by
  simp [moduleIdxs]

theorem moduleIdxs_top_down (n : ℕ) :
    moduleIdxs n LayerOrder.top_down = (List.finRange n).reverse := by
  simp [moduleIdxs]

theorem randomLayerGenAux_length {n : ℕ} {α : Type} (reset : ℕ → Fin n → α × ℕ)
    (seed : ℕ) (indep : Bool) (orig : Fin n → α) :
    ∀ (idxs : List (Fin n)) (cur : Fin n → α) (rng : ℕ),
      (randomLayerGenAux reset seed indep orig idxs cur rng).length = idxs.length := by
  intro idxs
  induction idxs with
  | nil => intro cur rng; rfl
  | cons i rest ih =>
    intro cur rng
    simp only [randomLayerGenAux, List.length_cons]
    rw [ih]

theorem randomLayerGenAux_rng_irrelevant {n : ℕ} {α : Type} (reset : ℕ → Fin n → α × ℕ)
    (seed : ℕ) (indep : Bool) (orig : Fin n → α) :
    ∀ (idxs : List (Fin n)) (cur : Fin n → α) (rng0 rng1 : ℕ),
      randomLayerGenAux reset seed indep orig idxs cur rng0 =
        randomLayerGenAux reset seed indep orig idxs cur rng1 := by
  intro idxs cur rng0 rng1
  cases idxs <;> rfl

theorem randomLayerGenAux_getElem_indep {n : ℕ} {α : Type} (reset : ℕ → Fin n → α × ℕ)
    (seed : ℕ) (orig : Fin n → α) :
    ∀ (idxs : List (Fin n)) (cur : Fin n → α) (rng k : ℕ) (hk : k < idxs.length),
      (randomLayerGenAux reset seed true orig idxs cur rng)[k]? =
        some ⟨idxs.get ⟨k, hk⟩, manualSeed (seed + 1),
          Function.update orig (idxs.get ⟨k, hk⟩)
            (resetVal reset seed (idxs.get ⟨k, hk⟩))⟩ := by
  intro idxs
  induction idxs with
  | nil => intro cur rng k hk; simp at hk
  | cons i rest ih =>
    intro cur rng k hk
    cases k with
    | zero => simp [randomLayerGenAux, resetVal]
    | succ k =>
      simp only [randomLayerGenAux, List.getElem?_cons_succ]
      exact ih _ _ k (by simpa using hk)

theorem randomLayerGenAux_getElem_cumul {n : ℕ} {α : Type} (reset : ℕ → Fin n → α × ℕ)
    (seed : ℕ) (orig : Fin n → α) :
    ∀ (idxs : List (Fin n)) (cur : Fin n → α) (rng k : ℕ) (hk : k < idxs.length),
      (randomLayerGenAux reset seed false orig idxs cur rng)[k]? =
        some ⟨idxs.get ⟨k, hk⟩, manualSeed (seed + 1),
          fun j => if j ∈ idxs.take (k + 1) then resetVal reset seed j else cur j⟩ := by
  intro idxs
  induction idxs with
  | nil => intro cur rng k hk; simp at hk
  | cons i rest ih =>
    intro cur rng k hk
    cases k with
    | zero =>
      simp only [randomLayerGenAux, Bool.false_eq_true, if_false, List.getElem?_cons_zero,
        List.get_eq_getElem, List.getElem_cons_zero, List.take_succ_cons, List.take_zero]
      refine congrArg some (congrArg (GenStep.mk _ _) ?_)
      funext j
      rw [Function.update_apply]
      by_cases hj : j = i
      · subst hj
        simp [resetVal]
      · simp [hj]
    | succ k =>
      simp only [randomLayerGenAux, Bool.false_eq_true, if_false, List.getElem?_cons_succ]
      rw [ih (Function.update cur i (reset (manualSeed (seed + 1)) i).1)
        (reset (manualSeed (seed + 1)) i).2 k (by simpa using hk)]
      simp only [List.get_eq_getElem, List.getElem_cons_succ, List.take_succ_cons]
      refine congrArg some (congrArg (GenStep.mk _ _) ?_)
      funext j
      by_cases hmem : j ∈ rest.take (k + 1)
      · simp [hmem, List.mem_cons_of_mem]
      · rw [if_neg hmem, Function.update_apply]
        by_cases hj : j = i
        · subst hj
          simp [resetVal]
        · have hnotin : j ∉ i :: rest.take (k + 1) := by
            simp [hj, hmem]
          simp [hnotin, hj]

theorem randomLayerGenAux_step_spec {n : ℕ} {α : Type} (reset : ℕ → Fin n → α × ℕ)
    (seed : ℕ) (indep : Bool) (orig : Fin n → α) :
    ∀ (idxs : List (Fin n)) (cur : Fin n → α) (rng k : ℕ)
      (hk : k < (randomLayerGenAux reset seed indep orig idxs cur rng).length),
      ((randomLayerGenAux reset seed indep orig idxs cur rng).get ⟨k, hk⟩).rngUsed =
        manualSeed (seed + 1) ∧
      ((randomLayerGenAux reset seed indep orig idxs cur rng).get ⟨k, hk⟩).modelState
          ((randomLayerGenAux reset seed indep orig idxs cur rng).get ⟨k, hk⟩).layerName =
        resetVal reset seed
          ((randomLayerGenAux reset seed indep orig idxs cur rng).get ⟨k, hk⟩).layerName := by
  intro idxs
  induction idxs with
  | nil => intro cur rng k hk; simp [randomLayerGenAux] at hk
  | cons i rest ih =>
    intro cur rng k hk
    cases k with
    | zero =>
      constructor
      · rfl
      · show Function.update _ i _ i = _
        rw [Function.update_same]
        rfl
    | succ k =>
      exact ih _ _ k _

theorem mem_take_finRange {n : ℕ} (k : ℕ) (j : Fin n) :
    j ∈ (List.finRange n).take (k + 1) ↔ j.val ≤ k := by
  rw [List.mem_take_iff_getElem]
  constructor
  · rintro ⟨i, hm, hij⟩
    rw [List.getElem_finRange] at hij
    have : j.val = i := by rw [← hij]; simp
    simp at hm
    omega
  · intro hj
    refine ⟨j.val, by simp; omega, ?_⟩
    rw [List.getElem_finRange]
    apply Fin.ext
    simp

theorem mem_take_reverse_finRange {n : ℕ} (k : ℕ) (hk : k < n) (j : Fin n) :
    j ∈ ((List.finRange n).reverse).take (k + 1) ↔ n - 1 - k ≤ j.val := by
  rw [List.mem_take_iff_getElem]
  constructor
  · rintro ⟨i, hm, hij⟩
    rw [List.getElem_reverse] at hij
    rw [List.getElem_finRange] at hij
    have hval : j.val = (List.finRange n).length - 1 - i := by rw [← hij]; simp
    simp only [List.length_finRange] at hval
    simp only [List.length_reverse, List.length_finRange] at hm
    omega
  · intro hj
    have hjn : j.val < n := j.isLt
    refine ⟨n - 1 - j.val, by simp; omega, ?_⟩
    rw [List.getElem_reverse, List.getElem_finRange]
    apply Fin.ext
    simp
    omega

/-- Helper: the k-th yield of the `independent` walk. -/
theorem gen_independent_getElem {n : ℕ} {α : Type} (reset : ℕ → Fin n → α × ℕ)
    (seed : ℕ) (orig : Fin n → α) (rng0 : ℕ) (k : ℕ) (hk : k < n) :
    (get_random_layer_generator reset LayerOrder.independent seed orig rng0)[k]? =
      some ⟨⟨k, hk⟩, manualSeed (seed + 1),
        Function.update orig ⟨k, hk⟩ (resetVal reset seed ⟨k, hk⟩)⟩ := by
  unfold get_random_layer_generator
  rw [moduleIdxs_independent]
  have hd : (LayerOrder.independent = LayerOrder.independent) = True := by simp
  rw [show (decide (LayerOrder.independent = LayerOrder.independent)) = true by decide]
  rw [randomLayerGenAux_getElem_indep reset seed orig (List.finRange n) orig rng0 k
    (by simpa using hk)]
  simp

/-- Helper: the k-th yield of the `bottom_up` walk. -/
theorem gen_bottom_up_getElem {n : ℕ} {α : Type} (reset : ℕ → Fin n → α × ℕ)
    (seed : ℕ) (orig : Fin n → α) (rng0 : ℕ) (k : ℕ) (hk : k < n) :
    (get_random_layer_generator reset LayerOrder.bottom_up seed orig rng0)[k]? =
      some ⟨⟨k, hk⟩, manualSeed (seed + 1),
        fun j => if j.val ≤ k then resetVal reset seed j else orig j⟩ := by
  unfold get_random_layer_generator
  rw [moduleIdxs_bottom_up]
  rw [show (decide (LayerOrder.bottom_up = LayerOrder.independent)) = false by decide]
  rw [randomLayerGenAux_getElem_cumul reset seed orig (List.finRange n) orig rng0 k
    (by simpa using hk)]
  refine congrArg some ?_
  have hname : (List.finRange n).get ⟨k, by simpa using hk⟩ = ⟨k, hk⟩ := by
    simp [List.get_eq_getElem, List.getElem_finRange]
  rw [hname]
  refine congrArg (GenStep.mk _ _) ?_
  funext j
  simp only [mem_take_finRange]

/-- Helper: the k-th yield of the `top_down` walk. -/
theorem gen_top_down_getElem {n : ℕ} {α : Type} (reset : ℕ → Fin n → α × ℕ)
    (seed : ℕ) (orig : Fin n → α) (rng0 : ℕ) (k : ℕ) (hk : k < n) :
    (get_random_layer_generator reset LayerOrder.top_down seed orig rng0)[k]? =
      some ⟨⟨n - 1 - k, by omega⟩, manualSeed (seed + 1),
        fun j => if n - 1 - k ≤ j.val then resetVal reset seed j else orig j⟩ := by
  unfold get_random_layer_generator
  rw [moduleIdxs_top_down]
  rw [show (decide (LayerOrder.top_down = LayerOrder.independent)) = false by decide]
  rw [randomLayerGenAux_getElem_cumul reset seed orig ((List.finRange n).reverse) orig rng0 k
    (by simpa using hk)]
  refine congrArg some ?_
  have hname : ((List.finRange n).reverse).get ⟨k, by simpa using hk⟩ = ⟨n - 1 - k, by omega⟩ := by
    rw [List.get_eq_getElem, List.getElem_reverse, List.getElem_finRange]
    apply Fin.ext
    simp
  rw [hname]
  refine congrArg (GenStep.mk _ _) ?_
  funext j
  simp only [mem_take_reverse_finRange k hk]

/-- C3: the generator yields exactly `n` pairs for every order; with
`order="independent"` the k-th yielded state is the original parameters
with exactly layer k freshly randomised (the originals are reloaded before
each layer); `order="bottom_up"` walks layers in definition order and
`order="top_down"` in reverse definition order, both cumulatively; hence
the two cumulative orders' first yielded states differ (last-defined layer
first versus first-defined layer first) and their final states have all
`n` layers randomised. -/
theorem random_layer_generator_order_semantics {n : ℕ} {α : Type}
    (reset : ℕ → Fin n → α × ℕ) (seed : ℕ) (orig : Fin n → α) (rng0 : ℕ)
    (hn : 2 ≤ n) (hchange : ∀ i, resetVal reset seed i ≠ orig i) :
    (∀ order, (get_random_layer_generator reset order seed orig rng0).length = n) ∧
    (∀ (k : ℕ) (hk : k < n),
      (get_random_layer_generator reset LayerOrder.independent seed orig rng0)[k]? =
        some ⟨⟨k, hk⟩, manualSeed (seed + 1),
          Function.update orig ⟨k, hk⟩ (resetVal reset seed ⟨k, hk⟩)⟩) ∧
    (∀ (k : ℕ) (hk : k < n),
      (get_random_layer_generator reset LayerOrder.bottom_up seed orig rng0)[k]? =
        some ⟨⟨k, hk⟩, manualSeed (seed + 1),
          fun j => if j.val ≤ k then resetVal reset seed j else orig j⟩) ∧
    (∀ (k : ℕ) (hk : k < n),
      (get_random_layer_generator reset LayerOrder.top_down seed orig rng0)[k]? =
        some ⟨⟨n - 1 - k, by omega⟩, manualSeed (seed + 1),
          fun j => if n - 1 - k ≤ j.val then resetVal reset seed j else orig j⟩) ∧
    ((get_random_layer_generator reset LayerOrder.top_down seed orig rng0)[0]?.map
        GenStep.modelState ≠
      (get_random_layer_generator reset LayerOrder.bottom_up seed orig rng0)[0]?.map
        GenStep.modelState) ∧
    ((get_random_layer_generator reset LayerOrder.bottom_up seed orig rng0)[n - 1]?.map
        GenStep.modelState = some (fun j => resetVal reset seed j) ∧
      (get_random_layer_generator reset LayerOrder.top_down seed orig rng0)[n - 1]?.map
        GenStep.modelState = some (fun j => resetVal reset seed j)) := by
  have hlen : ∀ order, (get_random_layer_generator reset order seed orig rng0).length = n := by
    intro order
    unfold get_random_layer_generator
    rw [randomLayerGenAux_length]
    cases order <;> simp [moduleIdxs]
  refine ⟨hlen, fun k hk => gen_independent_getElem reset seed orig rng0 k hk,
    fun k hk => gen_bottom_up_getElem reset seed orig rng0 k hk,
    fun k hk => gen_top_down_getElem reset seed orig rng0 k hk, ?_, ?_, ?_⟩
  · rw [gen_bottom_up_getElem reset seed orig rng0 0 (by omega),
      gen_top_down_getElem reset seed orig rng0 0 (by omega)]
    simp only [Option.map_some']
    intro hcontra
    have heq := Option.some.inj hcontra
    have h0 := congrFun heq ⟨0, by omega⟩
    simp only at h0
    rw [if_neg (by simp; omega), if_pos (by simp)] at h0
    exact hchange ⟨0, by omega⟩ h0.symm
  · rw [gen_bottom_up_getElem reset seed orig rng0 (n - 1) (by omega)]
    simp only [Option.map_some', Option.some.injEq]
    funext j
    rw [if_pos (by omega)]
  · rw [gen_top_down_getElem reset seed orig rng0 (n - 1) (by omega)]
    simp only [Option.map_some', Option.some.injEq]
    funext j
    rw [if_pos (by omega)]

/-- C3 witness: a three-layer model whose reset parameters differ from the
originals. -/
theorem random_layer_generator_order_semantics_witness :
    (get_random_layer_generator (fun s _ => ((1 : ℚ), s + 1)) LayerOrder.bottom_up 42
      (fun _ : Fin 3 => (0 : ℚ)) 7).length = 3 :=
  (random_layer_generator_order_semantics (fun s _ => ((1 : ℚ), s + 1)) 42
    (fun _ : Fin 3 => (0 : ℚ)) 7 (by omega)
    (fun i => by simp [resetVal])).1 LayerOrder.bottom_up

/-- C10: the generator re-seeds the RNG with `seed + 1` immediately before
every `reset_parameters` call, so it is deterministic: two walks with the
same model, order and seed agree step for step whatever the ambient RNG
state was, every step runs its reset from the identically re-seeded RNG
state, and the parameters written into the yielded layer are the fixed
draw `resetVal` of that seed. -/
theorem random_layer_generator_deterministic {n : ℕ} {α : Type}
    (reset : ℕ → Fin n → α × ℕ) (order : LayerOrder) (seed : ℕ) (orig : Fin n → α) :
    (∀ rng0 rng1, get_random_layer_generator reset order seed orig rng0 =
      get_random_layer_generator reset order seed orig rng1) ∧
    (∀ (rng0 k : ℕ)
      (hk : k < (get_random_layer_generator reset order seed orig rng0).length),
      ((get_random_layer_generator reset order seed orig rng0).get ⟨k, hk⟩).rngUsed =
        manualSeed (seed + 1) ∧
      ((get_random_layer_generator reset order seed orig rng0).get ⟨k, hk⟩).modelState
          ((get_random_layer_generator reset order seed orig rng0).get ⟨k, hk⟩).layerName =
        resetVal reset seed
          ((get_random_layer_generator reset order seed orig rng0).get ⟨k, hk⟩).layerName) := by
  constructor
  · intro rng0 rng1
    unfold get_random_layer_generator
    exact randomLayerGenAux_rng_irrelevant reset seed _ orig (moduleIdxs n order) orig rng0 rng1
  · intro rng0 k hk
    exact randomLayerGenAux_step_spec reset seed _ orig (moduleIdxs n order) orig rng0 k hk

/-- C10 witness: a one-layer model; the single step used the reseeded RNG
state `43 = 42 + 1` and wrote the corresponding draw. -/
theorem random_layer_generator_deterministic_witness :
    ((get_random_layer_generator (fun s _ => ((5 : ℚ), s + 1)) LayerOrder.bottom_up 42
        (fun _ : Fin 1 => (0 : ℚ)) 99).get ⟨0, by decide⟩).rngUsed = manualSeed 43 :=
  ((random_layer_generator_deterministic (fun s _ => ((5 : ℚ), s + 1)) LayerOrder.bottom_up
    42 (fun _ : Fin 1 => (0 : ℚ))).2 99 0 (by decide)).1

/-! ### argsort and value-swap facts -/

theorem argsort_perm {m : ℕ} (a : Fin m → ℚ) :
    (argsort a).Perm (List.finRange m) :=
  List.perm_insertionSort _ _

theorem argsort_length {m : ℕ} (a : Fin m → ℚ) : (argsort a).length = m := by
  rw [(argsort_perm a).length_eq]
  simp

theorem argsort_nodup {m : ℕ} (a : Fin m → ℚ) : (argsort a).Nodup :=
  ((argsort_perm a).nodup_iff).mpr (List.nodup_finRange m)

theorem argsort_mem {m : ℕ} (a : Fin m → ℚ) (p : Fin m) : p ∈ argsort a :=
  ((argsort_perm a).mem_iff).mpr (List.mem_finRange p)

theorem argsort_sorted {m : ℕ} (a : Fin m → ℚ) :
    List.Sorted (argsortRel a) (argsort a) :=
  List.sorted_insertionSort _ _

theorem argsort_rel_get {m : ℕ} (a : Fin m → ℚ) {k l : ℕ}
    (hk : k < (argsort a).length) (hl : l < (argsort a).length) (hkl : k < l) :
    argsortRel a ((argsort a).get ⟨k, hk⟩) ((argsort a).get ⟨l, hl⟩) :=
  List.pairwise_iff_get.mp (argsort_sorted a) ⟨k, hk⟩ ⟨l, hl⟩ hkl

theorem argsort_get_lt {m : ℕ} {a : Fin m → ℚ} (ha : Function.Injective a) {k l : ℕ}
    (hk : k < (argsort a).length) (hl : l < (argsort a).length) (hkl : k < l) :
    a ((argsort a).get ⟨k, hk⟩) < a ((argsort a).get ⟨l, hl⟩) := by
  rcases argsort_rel_get a hk hl hkl with h | ⟨heq, _⟩
  · exact h
  · have hne : (⟨k, hk⟩ : Fin (argsort a).length) ≠ ⟨l, hl⟩ := by
      intro hcon
      exact absurd (Fin.mk.injEq _ _ _ _ ▸ hcon) (by omega)
    exact absurd ((argsort_nodup a).get_inj_iff.mp (ha heq)) hne

theorem argsort_get_lt_iff {m : ℕ} {a : Fin m → ℚ} (ha : Function.Injective a) {k l : ℕ}
    (hk : k < (argsort a).length) (hl : l < (argsort a).length) :
    a ((argsort a).get ⟨k, hk⟩) < a ((argsort a).get ⟨l, hl⟩) ↔ k < l := by
  constructor
  · intro h
    by_contra hcon
    rcases Nat.lt_or_ge l k with hlk | hge
    · exact absurd (argsort_get_lt ha hl hk hlk) (by exact fun h2 => absurd (h.trans h2) (lt_irrefl _))
    · have : k = l := by omega
      subst this
      exact absurd h (lt_irrefl _)
  · exact argsort_get_lt ha hk hl

theorem scatterUpdate_not_mem {m : ℕ} (pairs : List (Fin m × ℚ)) (g : Fin m → ℚ)
    (p : Fin m) (hp : p ∉ pairs.map Prod.fst) :
    scatterUpdate pairs g p = g p := by
  induction pairs generalizing g with
  | nil => rfl
  | cons qw rest ih =>
    simp only [List.map_cons, List.mem_cons, not_or] at hp
    show scatterUpdate rest (Function.update g qw.1 qw.2) p = g p
    rw [ih _ hp.2, Function.update_noteq hp.1]

theorem scatterUpdate_mem {m : ℕ} (pairs : List (Fin m × ℚ)) (g : Fin m → ℚ)
    (p : Fin m) (v : ℚ) (hnd : (pairs.map Prod.fst).Nodup) (hmem : (p, v) ∈ pairs) :
    scatterUpdate pairs g p = v := by
  induction pairs generalizing g with
  | nil => simp at hmem
  | cons qw rest ih =>
    obtain ⟨q, w⟩ := qw
    simp only [List.map_cons, List.nodup_cons] at hnd
    rcases List.mem_cons.mp hmem with heq | htail
    · injection heq with h1 h2
      subst h1
      subst h2
      show scatterUpdate rest (Function.update g p v) p = v
      rw [scatterUpdate_not_mem rest _ _ hnd.1, Function.update_same]
    · exact ih _ hnd.2 htail

/-- The defining property of the value-swap scatter: the position holding
the k-th smallest value receives the (n-1-k)-th smallest value. -/
theorem valueSwapRow_get {m : ℕ} (a : Fin m → ℚ) (k : ℕ)
    (hk : k < (argsort a).length) :
    valueSwapRow a ((argsort a).get ⟨k, hk⟩) =
      a ((argsort a).get ⟨(argsort a).length - 1 - k, by omega⟩) := by
  have hlen2 : ((argsort a).reverse.map a).length = (argsort a).length := by simp
  apply scatterUpdate_mem
  · rw [List.map_fst_zip _ _ (by omega)]
    exact argsort_nodup a
  · have hzip : k < ((argsort a).zip ((argsort a).reverse.map a)).length := by
      rw [List.length_zip]
      omega
    have hgetzip : ((argsort a).zip ((argsort a).reverse.map a)).get ⟨k, hzip⟩ =
        ((argsort a).get ⟨k, hk⟩,
          a ((argsort a).get ⟨(argsort a).length - 1 - k, by omega⟩)) := by
      rw [List.get_eq_getElem, List.getElem_zip]
      refine Prod.ext rfl ?_
      rw [List.getElem_map, List.getElem_reverse]
      rfl
    rw [← hgetzip]
    exact List.get_mem _ _ _

theorem get_reverse_eq {α : Type} (l : List α) (k : ℕ) (hk : k < l.reverse.length) :
    l.reverse.get ⟨k, hk⟩ = l.get ⟨l.length - 1 - k, by simp at hk; omega⟩ := by
  rw [List.get_eq_getElem, List.get_eq_getElem, List.getElem_reverse]

/-- A single value-swap reverses the rank order of a ties-free row. -/
theorem valueSwapRow_reverses {m : ℕ} {a : Fin m → ℚ} (ha : Function.Injective a)
    (p q : Fin m) :
    a p < a q ↔ valueSwapRow a q < valueSwapRow a p := by
  obtain ⟨⟨i, hi⟩, hip⟩ := List.mem_iff_get.mp (argsort_mem a p)
  obtain ⟨⟨j, hj⟩, hjq⟩ := List.mem_iff_get.mp (argsort_mem a q)
  rw [← hip, ← hjq, valueSwapRow_get a i hi, valueSwapRow_get a j hj,
    argsort_get_lt_iff ha hi hj, argsort_get_lt_iff ha (by omega) (by omega)]
  omega

/-- A single value-swap permutes the row's values: the multiset of values
(hence of magnitudes) is preserved. -/
theorem valueSwapRow_values_perm {m : ℕ} (a : Fin m → ℚ) :
    ((List.finRange m).map (valueSwapRow a)).Perm ((List.finRange m).map a) := by
  have h1 : (argsort a).map (valueSwapRow a) = ((argsort a).reverse).map a := by
    apply List.ext_get (by simp)
    intro k h1 h2
    have hk : k < (argsort a).length := by simpa using h1
    rw [List.get_eq_getElem, List.get_eq_getElem, List.getElem_map, List.getElem_map,
      List.getElem_reverse]
    have hvs := valueSwapRow_get a k hk
    rw [List.get_eq_getElem, List.get_eq_getElem] at hvs
    exact hvs
  have h2 : (((argsort a).reverse).map a).Perm ((List.finRange m).map a) :=
    ((List.reverse_perm _).map a).trans ((argsort_perm a).map a)
  exact ((argsort_perm a).symm.map _).trans (by rw [h1]; exact h2)

/-- Sorting the swapped row sorts the original indices in reverse. -/
theorem argsort_valueSwapRow {m : ℕ} {a : Fin m → ℚ} (ha : Function.Injective a) :
    argsort (valueSwapRow a) = (argsort a).reverse := by
  apply List.eq_of_perm_of_sorted (r := argsortRel (valueSwapRow a))
  · exact (argsort_perm (valueSwapRow a)).trans
      ((argsort_perm a).symm.trans (List.reverse_perm _).symm)
  · exact argsort_sorted _
  · rw [List.Sorted, List.pairwise_iff_get]
    intro i j hij
    have hi : i.val < (argsort a).length := by
      have := i.isLt
      simpa using this
    have hj : j.val < (argsort a).length := by
      have := j.isLt
      simpa using this
    rw [get_reverse_eq (argsort a) i.val i.isLt, get_reverse_eq (argsort a) j.val j.isLt]
    refine Or.inl ?_
    have hvi := valueSwapRow_get a ((argsort a).length - 1 - i.val) (by omega)
    have hvj := valueSwapRow_get a ((argsort a).length - 1 - j.val) (by omega)
    have hii : (⟨(argsort a).length - 1 - ((argsort a).length - 1 - i.val), by omega⟩ :
        Fin (argsort a).length) = ⟨i.val, hi⟩ := Fin.ext (by simp; omega)
    have hjj : (⟨(argsort a).length - 1 - ((argsort a).length - 1 - j.val), by omega⟩ :
        Fin (argsort a).length) = ⟨j.val, hj⟩ := Fin.ext (by simp; omega)
    rw [hii] at hvi
    rw [hjj] at hvj
    rw [hvi, hvj]
    exact argsort_get_lt ha hi hj hij

/-- Value-swap is an involution on ties-free rows. -/
theorem valueSwapRow_involution {m : ℕ} {a : Fin m → ℚ} (ha : Function.Injective a) :
    valueSwapRow (valueSwapRow a) = a := by
  funext p
  obtain ⟨⟨j, hj⟩, hjp⟩ := List.mem_iff_get.mp (argsort_mem a p)
  have hτ := argsort_valueSwapRow ha
  have hLτ : (argsort (valueSwapRow a)).length = (argsort a).length := by
    rw [hτ]
    simp
  have hjτ : (argsort a).length - 1 - j < (argsort (valueSwapRow a)).length := by omega
  have hp2 : (argsort (valueSwapRow a)).get ⟨(argsort a).length - 1 - j, hjτ⟩ = p := by
    rw [List.get_of_eq hτ ⟨(argsort a).length - 1 - j, hjτ⟩, get_reverse_eq]
    have hidx : (⟨(argsort a).length - 1 - ((argsort a).length - 1 - j), by omega⟩ :
        Fin (argsort a).length) = ⟨j, hj⟩ := Fin.ext (by simp; omega)
    rw [hidx]
    exact hjp
  rw [← hp2, valueSwapRow_get (valueSwapRow a) _ hjτ]
  have hidx2 : (⟨(argsort (valueSwapRow a)).length - 1 - ((argsort a).length - 1 - j),
      by omega⟩ : Fin (argsort (valueSwapRow a)).length) = ⟨j, by omega⟩ :=
    Fin.ext (by simp; omega)
  rw [hidx2]
  have hgj : (argsort (valueSwapRow a)).get ⟨j, by omega⟩ =
      (argsort a).get ⟨(argsort a).length - 1 - j, by omega⟩ := by
    rw [List.get_of_eq hτ ⟨j, by omega⟩, get_reverse_eq]
  rw [hgj, valueSwapRow_get a _ (by omega)]
  have hidx3 : (⟨(argsort a).length - 1 - ((argsort a).length - 1 - j), by omega⟩ :
      Fin (argsort a).length) = ⟨j, hj⟩ := Fin.ext (by simp; omega)
  rw [hidx3, hjp, hp2]

/-- C6: `get_inverse_attributions` with `inverse_method='sign-flip'` is an
involution on every attribution batch; with `'value-swap'` a single
application permutes each row's values (preserving the multiset of
magnitudes) while reversing their rank order, and a double application
returns a batch with pairwise-distinct row values exactly. -/
theorem inverse_attributions_spec (m : ℕ) :
    (∀ a_batch : List (Fin m → ℚ),
      get_inverse_attributions "sign-flip"
        (get_inverse_attributions "sign-flip" a_batch) = a_batch) ∧
    (∀ a_batch : List (Fin m → ℚ),
      get_inverse_attributions "value-swap" a_batch = a_batch.map valueSwapRow) ∧
    (∀ a : Fin m → ℚ,
      ((List.finRange m).map (valueSwapRow a)).Perm ((List.finRange m).map a)) ∧
    (∀ a : Fin m → ℚ, Function.Injective a →
      ∀ p q : Fin m, a p < a q ↔ valueSwapRow a q < valueSwapRow a p) ∧
    (∀ a_batch : List (Fin m → ℚ), (∀ a ∈ a_batch, Function.Injective a) →
      get_inverse_attributions "value-swap"
        (get_inverse_attributions "value-swap" a_batch) = a_batch) := by
  have hvs : ∀ a_batch : List (Fin m → ℚ),
      get_inverse_attributions "value-swap" a_batch = a_batch.map valueSwapRow := by
    intro a_batch
    rw [get_inverse_attributions, if_neg (by decide), if_pos rfl]
  refine ⟨?_, hvs, fun a => valueSwapRow_values_perm a,
    fun a ha p q => valueSwapRow_reverses ha p q, ?_⟩
  · intro a_batch
    rw [get_inverse_attributions, if_pos rfl, get_inverse_attributions, if_pos rfl,
      List.map_map]
    have hcomp : ((fun (a : Fin m → ℚ) (i : Fin m) => -a i) ∘
        fun (a : Fin m → ℚ) (i : Fin m) => -a i) = id := by
      funext a i
      simp
    rw [hcomp, List.map_id]
  · intro a_batch hinj
    rw [hvs, hvs, List.map_map]
    have hpt : ∀ a ∈ a_batch, (valueSwapRow ∘ valueSwapRow) a = id a := by
      intro a ha
      exact valueSwapRow_involution (hinj a ha)
    rw [List.map_congr_left hpt, List.map_id]

/-- C6 witness: a ties-free row survives a double value-swap. -/
theorem inverse_attributions_spec_witness :
    get_inverse_attributions "value-swap"
      (get_inverse_attributions "value-swap" [![(1 : ℚ), 2]]) = [![(1 : ℚ), 2]] :=
  (inverse_attributions_spec 2).2.2.2.2 [![(1 : ℚ), 2]]
    (fun a ha => by
      rw [List.mem_singleton] at ha
      subst ha
      decide)

end Quantus
